import Mathlib

/-!
Shallow embedding of `presidio_analyzer/presidio_summarizer.py`.

Modelling conventions:
* Python floats (confidence scores) are modelled as exact rationals (`ℚ`);
  every score arithmetic in the source is `+`, `/ 2`, `/ count` and `>`
  comparisons, all exact here.
* Python dicts (which have unique keys and preserve insertion order) are
  modelled as insertion-ordered association lists; `dict[k] = v` on a present
  key rewrites the entry in place, on an absent key appends.
* Python sets are modelled as insertion-ordered duplicate-free lists
  (`insertExpl` is `set.add`).  The single-text path only ever observes a
  set through `sorted(...)`, so the internal order is immaterial there; the
  batch path joins a set directly, where CPython's iteration order is
  unspecified and the model fixes it to insertion order.
* `str.split(' and ')` is `String.splitOn " and "`, `' and '.join` is
  `String.intercalate " and "`, both matching Python semantics for a
  non-empty separator.
-/

namespace Presidio

/-- Python float score, modelled exactly. -/
abbrev Score := ℚ

/-- The `analysis_explanation` object attached to a recognizer result;
the code only reads its `textual_explanation` attribute. -/
structure AnalysisExplanation where
  textual_explanation : String
deriving DecidableEq, Repr

/-- The dict shape consumed by `merge_entities`: keys `word`, `start`, `end`,
`entity_type`, `score`, `analysis_explanation`. -/
structure RawEntity where
  word : String
  start : Nat
  «end» : Nat
  entity_type : String
  score : Score
  analysis_explanation : AnalysisExplanation
deriving DecidableEq, Repr

/-- The dict shape of flattened / merged entities: keys `word`, `start`,
`end`, `type`, `score`, `explanation`. -/
structure Entity where
  word : String
  start : Nat
  «end» : Nat
  type : String
  score : Score
  explanation : String
deriving DecidableEq, Repr

/-- The flattening step at the top of `merge_entities`: renames
`entity_type` to `type` and extracts `analysis_explanation.textual_explanation`
into `explanation`. -/
def flattenPrediction (e : RawEntity) : Entity :=
  { word := e.word, start := e.start, «end» := e.«end», type := e.entity_type,
    score := e.score, explanation := e.analysis_explanation.textual_explanation }

/-- `flattened_predictions.sort(key=lambda x: (x['start'], -x['score']))`:
the key order is lexicographic on `(start ascending, score descending)`. -/
def entityLE (a b : Entity) : Bool :=
  decide (a.start < b.start ∨ (a.start = b.start ∧ b.score ≤ a.score))

/-- Python's stable sort on the `(start, -score)` key. -/
def sortEntities (l : List Entity) : List Entity :=
  l.mergeSort entityLE

/-- The running cluster of the sweep in `merge_entities`
(`current_word` … `current_explanation`).  `explanation` is the Python set
`current_explanation`, modelled as an insertion-ordered duplicate-free list. -/
structure Cluster where
  word : String
  start : Nat
  «end» : Nat
  type : String
  score : Score
  explanation : List String
deriving DecidableEq, Repr

/-- `set.add`: insert if absent, keep insertion order. -/
def insertExpl (s : List String) (e : String) : List String :=
  if e ∈ s then s else s ++ [e]

/-- Python `sorted` on a list of strings (lexicographic code-point order). -/
def sortStrings (l : List String) : List String :=
  l.mergeSort (fun a b => decide (a ≤ b))

/-- `' and '.join(...)`. -/
def joinAnd (l : List String) : String :=
  String.intercalate " and " l

/-- Closing the current cluster: `' and '.join(sorted(current_explanation))`
and emit the merged dict. -/
def closeCluster (c : Cluster) : Entity :=
  { word := c.word, start := c.start, «end» := c.«end», type := c.type,
    score := c.score, explanation := joinAnd (sortStrings c.explanation) }

/-- Seeding a fresh cluster from an entity (the `current_word is None` branch
and the cluster reset in the `else` branch). -/
def openCluster (e : Entity) : Cluster :=
  { word := e.word, start := e.start, «end» := e.«end», type := e.type,
    score := e.score, explanation := [e.explanation] }

/-- Folding an overlapping entity (`entity['start'] < current_end`) into the
cluster: on a strictly higher score the word is space-appended and
`end`/`type`/`score` are replaced; the explanation is added regardless. -/
def absorbEntity (c : Cluster) (e : Entity) : Cluster :=
  let c' :=
    if c.score < e.score then
      { c with
        word := c.word ++ " " ++ e.word,
        «end» := e.«end»,
        type := e.type,
        score := e.score }
    else c
  { c' with explanation := insertExpl c'.explanation e.explanation }

/-- The left-to-right sweep of `merge_entities` over the sorted list, with
one open cluster; the final open cluster is always closed and appended. -/
def mergeSweep : Cluster → List Entity → List Entity
  | c, [] => [closeCluster c]
  | c, e :: rest =>
      if e.start < c.«end» then mergeSweep (absorbEntity c e) rest
      else closeCluster c :: mergeSweep (openCluster e) rest

/-- The sort-and-sweep core of `merge_entities`, operating on already
flattened records. -/
def mergeCore (flat : List Entity) : List Entity :=
  match sortEntities flat with
  | [] => []
  | e :: rest => mergeSweep (openCluster e) rest

/-- `PresidioSummarizer.merge_entities`. -/
def merge_entities (predictions : List RawEntity) : List Entity :=
  mergeCore (predictions.map flattenPrediction)

/-- `s.split(' and ')`. -/
def splitAnd (s : String) : List String :=
  s.splitOn " and "

/-- First-seen-order deduplication (the contents of a Python set built by
successive `add`s). -/
def dedupFirst (l : List String) : List String :=
  l.foldl insertExpl []

/-- The sorted duplicate-free union of the ` and `-token sets of the two
entities' explanations (`sorted(set(a.split(' and ')) | set(b.split(' and ')))`). -/
def unionTokens (c e : Entity) : List String :=
  sortStrings (dedupFirst (splitAnd c.explanation ++ splitAnd e.explanation))

/-- Fusing an exactly adjacent same-type entity in
`merge_consecutive_entities`. -/
def fuseAdjacent (c e : Entity) : Entity :=
  { word := c.word ++ e.word, start := c.start, «end» := e.«end», type := c.type,
    score := (c.score + e.score) / 2,
    explanation := joinAnd (unionTokens c e) }

/-- The scan of `merge_consecutive_entities` from index 1 on, with
`current_entity` as accumulator; the final current entity is appended. -/
def adjacentSweep : Entity → List Entity → List Entity
  | c, [] => [c]
  | c, e :: rest =>
      if e.type = c.type ∧ e.start = c.«end» then adjacentSweep (fuseAdjacent c e) rest
      else c :: adjacentSweep e rest

/-- `PresidioSummarizer.merge_consecutive_entities`.  (`.copy()` on a dict of
immutable values is the identity in this value model.) -/
def merge_consecutive_entities : List Entity → List Entity
  | [] => []
  | e :: rest => adjacentSweep e rest

/-- A Presidio `RecognizerResult` as read by `summarize_pii` and the batch
path: `start`, `end`, `entity_type`, `score`, `analysis_explanation`. -/
structure RecognizerResult where
  start : Nat
  «end» : Nat
  entity_type : String
  score : Score
  analysis_explanation : AnalysisExplanation
deriving DecidableEq, Repr

/-- Python `text[a:b]` on character offsets (clamping slice semantics). -/
def pySlice (text : String) (a b : Nat) : String :=
  String.mk ((text.toList.drop a).take (b - a))

/-- Python `str.strip()` (whitespace trimmed from both ends). -/
def pyStrip (s : String) : String :=
  String.mk (((s.toList.dropWhile Char.isWhitespace).reverse.dropWhile
    Char.isWhitespace).reverse)

/-- `PresidioSummarizer.summarize_pii`. -/
def summarize_pii (presidio_results : List RecognizerResult) (text : String) :
    List Entity :=
  let word_predictions : List RawEntity := presidio_results.map (fun r =>
    { word := pyStrip (pySlice text r.start r.«end»), start := r.start,
      «end» := r.«end», entity_type := r.entity_type, score := r.score,
      analysis_explanation := r.analysis_explanation })
  merge_consecutive_entities (merge_entities word_predictions)

/-- One `DictAnalyzerResult` consumed by `summarize_pii_batch`: a group key,
a value list (used only for its length) and one result list per record. -/
structure DictAnalyzerResult where
  key : String
  value : List String
  recognizer_results : List (List RecognizerResult)
deriving DecidableEq, Repr

/-- `pii_scores[pii_type] += …`: rewrite the `(total_score, count)` entry in
place if the key is present, else append a fresh `(score, 1)` entry. -/
def updateScores (m : List (String × Score × Nat)) (t : String) (s : Score) :
    List (String × Score × Nat) :=
  if (m.lookup t).isSome then
    m.map (fun p => if p.1 = t then (p.1, p.2.1 + s, p.2.2 + 1) else p)
  else m ++ [(t, s, 1)]

/-- `pii_explanations[pii_type].add(…)`: add to the per-type set if the key
is present, else start a fresh singleton set. -/
def updateExplanations (m : List (String × List String)) (t ex : String) :
    List (String × List String) :=
  if (m.lookup t).isSome then
    m.map (fun p => if p.1 = t then (p.1, insertExpl p.2 ex) else p)
  else m ++ [(t, [ex])]

/-- The body of the inner loop of `summarize_pii_batch`: update both
per-category accumulators from one recognizer result. -/
def accumulateResult
    (acc : List (String × Score × Nat) × List (String × List String))
    (r : RecognizerResult) :
    List (String × Score × Nat) × List (String × List String) :=
  (updateScores acc.1 r.entity_type r.score,
   updateExplanations acc.2 r.entity_type r.analysis_explanation.textual_explanation)

/-- The two accumulators (`pii_scores`, `pii_explanations`) after the nested
`for results in recognizer_results: for result in results:` loops. -/
def itemAccum (item : DictAnalyzerResult) :
    List (String × Score × Nat) × List (String × List String) :=
  item.recognizer_results.foldl
    (fun acc results => results.foldl accumulateResult acc) ([], [])

/-- One output record of `summarize_pii_batch`. -/
structure BatchSummary where
  column : String
  n : Nat
  avg_scores : List (String × Score)
  explanation : List (String × String)
deriving DecidableEq, Repr

/-- The per-item body of `summarize_pii_batch`: averages and joined
explanations from the accumulators. -/
def summarizeItem (item : DictAnalyzerResult) : BatchSummary :=
  { column := item.key, n := item.value.length,
    avg_scores := (itemAccum item).1.map (fun p => (p.1, p.2.1 / (p.2.2 : Score))),
    explanation := (itemAccum item).2.map (fun p => (p.1, joinAnd p.2)) }

/-- `summarize_pii_batch`. -/
def summarize_pii_batch (presidio_results : List DictAnalyzerResult) :
    List BatchSummary :=
  presidio_results.map summarizeItem

/-!
Dict-level model of `merge_entities`.  The typed model above assumes its
input dicts carry the keys the flattening loop reads; to reason about
re-applying `merge_entities` to its own output (whose dicts carry the keys
`type` and `explanation` instead of `entity_type` and
`analysis_explanation`), we model Python dict values and the `KeyError`
raised by `entity[k]` on a missing key.
-/

/-- A Python value stored in one of the summarizer's dicts. -/
inductive PyVal where
  | str : String → PyVal
  | nat : Nat → PyVal
  | rat : Score → PyVal
  | obj : AnalysisExplanation → PyVal
deriving DecidableEq, Repr

/-- A Python dict (string keys). -/
abbrev PyDict := List (String × PyVal)

/-- `d[k]`: the value if present, a `KeyError` carrying the key otherwise. -/
def dictGet (d : PyDict) (k : String) : Except String PyVal :=
  match d.lookup k with
  | some v => Except.ok v
  | none => Except.error k

/-- One iteration of the flattening loop of `merge_entities`, at dict level:
reads the six keys in source order and fails with the first missing one. -/
def flattenDict (d : PyDict) : Except String Entity := do
  let w ← dictGet d "word"
  let s ← dictGet d "start"
  let e ← dictGet d "end"
  let t ← dictGet d "entity_type"
  let sc ← dictGet d "score"
  let ex ← dictGet d "analysis_explanation"
  match w, s, e, t, sc, ex with
  | .str w, .nat s, .nat e, .str t, .rat sc, .obj a =>
      Except.ok ⟨w, s, e, t, sc, a.textual_explanation⟩
  | _, _, _, _, _, _ => Except.error "TypeError"

/-- The output dict built by `merge_entities` when a cluster is closed:
keys `word`, `start`, `end`, `type`, `score`, `explanation`. -/
def entityToDict (e : Entity) : PyDict :=
  [("word", PyVal.str e.word), ("start", PyVal.nat e.start),
   ("end", PyVal.nat e.«end»), ("type", PyVal.str e.type),
   ("score", PyVal.rat e.score), ("explanation", PyVal.str e.explanation)]

/-- `merge_entities` at dict level: flatten each input dict (propagating the
first `KeyError`), then run the sort-and-sweep core. -/
def merge_entities_py (l : List PyDict) : Except String (List PyDict) := do
  let flat ← l.mapM flattenDict
  Except.ok ((mergeCore flat).map entityToDict)

/-!
Specification-side definitions used to state the claims about the batch
path, written independently of the accumulator loop: per-category score sum,
detection count and justification list over the flattened detections of a
group, and first-seen-order deduplication.
-/

/-- The flattened detections of a group (the nested loop's iteration order). -/
def flatResults (item : DictAnalyzerResult) : List RecognizerResult :=
  item.recognizer_results.flatten

/-- Sum of the scores of the detections of category `t`. -/
def catScoreSum (t : String) (rs : List RecognizerResult) : Score :=
  ((rs.filter fun r => decide (r.entity_type = t)).map fun r => r.score).sum

/-- Number of detections of category `t`. -/
def catCount (t : String) (rs : List RecognizerResult) : Nat :=
  (rs.filter fun r => decide (r.entity_type = t)).length

/-- The justification strings of the detections of category `t`, in
iteration order. -/
def catJusts (t : String) (rs : List RecognizerResult) : List String :=
  (rs.filter fun r => decide (r.entity_type = t)).map
    fun r => r.analysis_explanation.textual_explanation

/-- Keep the first occurrence of every string, dropping later duplicates. -/
def firstSeen : List String → List String
  | [] => []
  | a :: l => a :: firstSeen (l.filter fun b => decide (b ≠ a))
termination_by l => l.length
decreasing_by
  simp only [List.length_cons]
  exact Nat.lt_succ_of_le (List.length_filter_le _ l)

/-! Concrete inputs used by individual claims. -/

/-- Overlapping pair for Scenario 1: `[0,5)` at score `0.9`… -/
def ovlA : RawEntity := ⟨"ab", 0, 5, "T", 0.9, ⟨"alpha"⟩⟩

/-- …and `[3,8)` at score `0.7`, same category. -/
def ovlB : RawEntity := ⟨"cd", 3, 8, "T", 0.7, ⟨"beta"⟩⟩

/-- Same overlapping pair, for the containment claim. -/
def cov1 : RawEntity := ⟨"ab", 0, 5, "T", 0.9, ⟨"alpha"⟩⟩

/-- Second record of the containment pair. -/
def cov2 : RawEntity := ⟨"cd", 3, 8, "T", 0.7, ⟨"beta"⟩⟩

/-- A valid but unsorted list for the adjacency-merger ordering claim. -/
def uns1 : Entity := ⟨"x", 5, 6, "A", 1, "e1"⟩

/-- Second element of the unsorted list (starts before `uns1`). -/
def uns2 : Entity := ⟨"y", 0, 1, "B", 1, "e2"⟩

/-- Ordering witness input. -/
def ord1 : RawEntity := ⟨"ab", 0, 5, "T", 0.9, ⟨"alpha"⟩⟩

/-- Second ordering witness record. -/
def ord2 : RawEntity := ⟨"cd", 6, 8, "T", 0.7, ⟨"beta"⟩⟩

/-- An input dict of the shape `merge_entities` flattens. -/
def pyInput : PyDict :=
  [("word", PyVal.str "John"), ("start", PyVal.nat 0), ("end", PyVal.nat 4),
   ("entity_type", PyVal.str "PERSON"), ("score", PyVal.rat 0.9),
   ("analysis_explanation", PyVal.obj ⟨"ner match"⟩)]

/-- The output dict `merge_entities` produces from `pyInput` alone. -/
def pyOutput : PyDict :=
  [("word", PyVal.str "John"), ("start", PyVal.nat 0), ("end", PyVal.nat 4),
   ("type", PyVal.str "PERSON"), ("score", PyVal.rat 0.9),
   ("explanation", PyVal.str "ner match")]

/-- Idempotence witness entity. -/
def idem1 : Entity := ⟨"jm", 2, 7, "P", 0.5, "x"⟩

/-- Adjacent fusable pair: `[0,4)`… -/
def adjA : Entity := ⟨"ab", 0, 4, "T", 0.8, "e1"⟩

/-- …and `[4,9)`, same category, exactly adjacent. -/
def adjB : Entity := ⟨"cd", 4, 9, "T", 0.6, "e2"⟩

/-- A non-fusable follower (different category). -/
def adjC : Entity := ⟨"zz", 9, 12, "U", 0.5, "e3"⟩

/-- A batch group containing two same-category detections with identical
justification strings. -/
def dupItem : DictAnalyzerResult :=
  ⟨"col", ["v"], [[⟨0, 1, "A", 0.8, ⟨"x"⟩⟩, ⟨2, 3, "A", 0.6, ⟨"x"⟩⟩]]⟩

/-! ### Facts about the overlap sweep -/

lemma absorbEntity_start (c : Cluster) (e : Entity) :
    (absorbEntity c e).start = c.start := by
  unfold absorbEntity
  split <;> rfl

lemma absorbEntity_end (c : Cluster) (e : Entity) :
    (absorbEntity c e).«end» = if c.score < e.score then e.«end» else c.«end» := by
  unfold absorbEntity
  split <;> rfl

lemma entityLE_trans (a b c : Entity) (hab : entityLE a b) (hbc : entityLE b c) :
    entityLE a c := by
  simp only [entityLE, decide_eq_true_eq] at *
  rcases hab with h | ⟨h1, h2⟩ <;> rcases hbc with h' | ⟨h1', h2'⟩
  · exact Or.inl (h.trans h')
  · exact Or.inl (h1' ▸ h)
  · exact Or.inl (h1 ▸ h')
  · exact Or.inr ⟨h1.trans h1', h2'.trans h2⟩

lemma entityLE_total (a b : Entity) : entityLE a b || entityLE b a := by
  simp only [entityLE, Bool.or_eq_true, decide_eq_true_eq]
  rcases Nat.lt_trichotomy a.start b.start with h | h | h
  · exact Or.inl (Or.inl h)
  · rcases le_total a.score b.score with h' | h'
    · exact Or.inr (Or.inr ⟨h.symm, h'⟩)
    · exact Or.inl (Or.inr ⟨h, h'⟩)
  · exact Or.inr (Or.inl h)

lemma start_le_of_entityLE {a b : Entity} (h : entityLE a b) :
    a.start ≤ b.start := by
  simp only [entityLE, decide_eq_true_eq] at h
  rcases h with h | ⟨h, _⟩
  · exact h.le
  · exact h.le

/-- The sorted list produced inside `merge_entities` is a permutation of the
flattened input with non-decreasing starts. -/
lemma sortEntities_facts (l : List Entity) :
    (sortEntities l).Perm l ∧
      (sortEntities l).Pairwise (fun a b => a.start ≤ b.start) := by
  refine ⟨List.mergeSort_perm l entityLE, ?_⟩
  exact (List.sorted_mergeSort entityLE_trans entityLE_total l).imp
    fun h => start_le_of_entityLE h

/-- Core invariant of the overlap sweep: from a cluster with a non-empty span
and a start-sorted tail lying at or after the cluster start, the sweep emits a
non-empty list headed at the cluster start whose spans are non-empty and
pairwise non-overlapping in order. -/
lemma mergeSweep_spans (rest : List Entity) : ∀ c : Cluster,
    c.start < c.«end» →
    (∀ e ∈ rest, e.start < e.«end») →
    (∀ e ∈ rest, c.start ≤ e.start) →
    rest.Pairwise (fun a b => a.start ≤ b.start) →
    ∃ o out, mergeSweep c rest = o :: out ∧ o.start = c.start ∧
      (∀ x ∈ o :: out, x.start < x.«end») ∧
      List.Chain' (fun a b => a.«end» ≤ b.start) (o :: out) := by
  induction rest with
  | nil =>
    intro c h1 _ _ _
    exact ⟨closeCluster c, [], rfl, rfl, by
      simpa [closeCluster] using h1, List.chain'_singleton _⟩
  | cons e rest ih =>
    intro c h1 h2 h3 h4
    by_cases he : e.start < c.«end»
    · have hstep : mergeSweep c (e :: rest) = mergeSweep (absorbEntity c e) rest := by
        simp [mergeSweep, he]
      have h1' : (absorbEntity c e).start < (absorbEntity c e).«end» := by
        rw [absorbEntity_start, absorbEntity_end]
        split
        · exact lt_of_le_of_lt (h3 e (List.mem_cons_self e rest))
            (h2 e (List.mem_cons_self e rest))
        · exact h1
      obtain ⟨o, out, heq, hst, hv, hch⟩ := ih (absorbEntity c e)
        h1'
        (fun x hx => h2 x (List.mem_cons_of_mem e hx))
        (fun x hx => by
          rw [absorbEntity_start]; exact h3 x (List.mem_cons_of_mem e hx))
        (List.Pairwise.of_cons h4)
      exact ⟨o, out, hstep ▸ heq, hst.trans (absorbEntity_start c e), hv, hch⟩
    · have hstep : mergeSweep c (e :: rest) =
          closeCluster c :: mergeSweep (openCluster e) rest := by
        simp [mergeSweep, he]
      obtain ⟨o, out, heq, hst, hv, hch⟩ := ih (openCluster e)
        (h2 e (List.mem_cons_self e rest))
        (fun x hx => h2 x (List.mem_cons_of_mem e hx))
        (fun x hx => List.rel_of_pairwise_cons h4 hx)
        (List.Pairwise.of_cons h4)
      refine ⟨closeCluster c, mergeSweep (openCluster e) rest, hstep, rfl, ?_, ?_⟩
      · intro x hx
        rcases List.mem_cons.1 hx with hx | hx
        · subst hx; simpa [closeCluster] using h1
        · rw [heq] at hx; exact hv x hx
      · rw [heq, List.chain'_cons]
        refine ⟨?_, hch⟩
        show (closeCluster c).«end» ≤ o.start
        rw [hst]
        exact le_of_not_lt he

/-- The sort-and-sweep core turns any list of non-empty spans into a list of
non-empty, in-order non-overlapping spans. -/
lemma mergeCore_spans (l : List Entity) (hv : ∀ e ∈ l, e.start < e.«end») :
    (∀ x ∈ mergeCore l, x.start < x.«end») ∧
      List.Chain' (fun a b => a.«end» ≤ b.start) (mergeCore l) := by
  obtain ⟨hperm, hsorted⟩ := sortEntities_facts l
  have hvs : ∀ e ∈ sortEntities l, e.start < e.«end» :=
    fun e he => hv e (hperm.subset he)
  rcases hs : sortEntities l with _ | ⟨e, rest⟩
  · have : mergeCore l = [] := by rw [mergeCore, hs]
    simp [this]
  · rw [hs] at hvs hsorted
    have hcore : mergeCore l = mergeSweep (openCluster e) rest := by
      rw [mergeCore, hs]
    obtain ⟨o, out, heq, _, hvout, hch⟩ := mergeSweep_spans rest (openCluster e)
      (hvs e (List.mem_cons_self e rest))
      (fun x hx => hvs x (List.mem_cons_of_mem e hx))
      (fun x hx => List.rel_of_pairwise_cons hsorted hx)
      (List.Pairwise.of_cons hsorted)
    rw [hcore, heq]
    exact ⟨hvout, hch⟩

/-- Non-empty spans chained by `end ≤ start` are strictly sorted by `start`. -/
lemma chain_start_lt_of_spans :
    ∀ l : List Entity, (∀ x ∈ l, x.start < x.«end») →
      List.Chain' (fun a b => a.«end» ≤ b.start) l →
      List.Chain' (fun a b => a.start < b.start) l
  | [], _, _ => List.chain'_nil
  | [_], _, _ => List.chain'_singleton _
  | a :: b :: l, hv, hc => by
    rw [List.chain'_cons] at hc ⊢
    exact ⟨lt_of_lt_of_le (hv a (List.mem_cons_self a _)) hc.1,
      chain_start_lt_of_spans (b :: l) (fun x hx => hv x (List.mem_cons_of_mem a hx)) hc.2⟩

/-- Non-empty spans chained by `end ≤ start` are pairwise non-overlapping,
not just adjacent-pairwise. -/
lemma pairwise_disjoint_of_spans :
    ∀ l : List Entity, (∀ x ∈ l, x.start < x.«end») →
      List.Chain' (fun a b => a.«end» ≤ b.start) l →
      l.Pairwise (fun a b => a.«end» ≤ b.start)
  | [], _, _ => List.Pairwise.nil
  | a :: l, hv, hc => by
    have hvl : ∀ x ∈ l, x.start < x.«end» :=
      fun x hx => hv x (List.mem_cons_of_mem a hx)
    have hcl : List.Chain' (fun a b => a.«end» ≤ b.start) l := hc.tail
    have ih := pairwise_disjoint_of_spans l hvl hcl
    refine List.pairwise_cons.2 ⟨?_, ih⟩
    intro b hb
    rcases l with _ | ⟨h0, l'⟩
    · cases hb
    · rw [List.chain'_cons] at hc
      rcases List.mem_cons.1 hb with hb | hb
      · exact hb ▸ hc.1
      · calc a.«end» ≤ h0.start := hc.1
          _ ≤ h0.«end» := (hvl h0 (List.mem_cons_self h0 l')).le
          _ ≤ b.start := List.rel_of_pairwise_cons ih hb

/-- At most one span of a pairwise non-overlapping list covers any point. -/
lemma countP_cover_le_one (l : List Entity) (p : Nat)
    (hp : l.Pairwise (fun a b => a.«end» ≤ b.start)) :
    l.countP (fun o => decide (o.start ≤ p ∧ p < o.«end»)) ≤ 1 := by
  induction l with
  | nil => simp
  | cons a t ih =>
    rw [List.countP_cons]
    by_cases ha : a.start ≤ p ∧ p < a.«end»
    · have ht : t.countP (fun o => decide (o.start ≤ p ∧ p < o.«end»)) = 0 := by
        rw [List.countP_eq_zero]
        intro b hb
        have hab : a.«end» ≤ b.start := List.rel_of_pairwise_cons hp hb
        simp only [decide_eq_true_eq]
        rintro ⟨hbs, -⟩
        exact absurd (lt_of_lt_of_le (lt_of_lt_of_le ha.2 hab) hbs) (lt_irrefl p)
      simp [ht, ha]
      intro b hb hbs
      exact absurd (lt_of_lt_of_le (lt_of_lt_of_le ha.2
        (List.rel_of_pairwise_cons hp hb)) hbs) (lt_irrefl p)
    · simpa [ha] using ih (List.Pairwise.of_cons hp)

/-- Any point inside the open cluster's span and at or before every remaining
start stays covered by some emitted span. -/
lemma mergeSweep_covers (rest : List Entity) : ∀ (c : Cluster) (p : Nat),
    (∀ e ∈ rest, e.start < e.«end») →
    rest.Pairwise (fun a b => a.start ≤ b.start) →
    c.start ≤ p → p < c.«end» →
    (∀ e ∈ rest, p ≤ e.start) →
    ∃ o ∈ mergeSweep c rest, o.start ≤ p ∧ p < o.«end» := by
  induction rest with
  | nil =>
    intro c p _ _ hps hpe _
    exact ⟨closeCluster c, List.mem_singleton_self _, hps, hpe⟩
  | cons e rest ih =>
    intro c p h2 h4 hps hpe hfut
    by_cases he : e.start < c.«end»
    · have hstep : mergeSweep c (e :: rest) = mergeSweep (absorbEntity c e) rest := by
        simp [mergeSweep, he]
      rw [hstep]
      refine ih (absorbEntity c e) p
        (fun x hx => h2 x (List.mem_cons_of_mem e hx))
        (List.Pairwise.of_cons h4)
        (by rw [absorbEntity_start]; exact hps) ?_
        (fun x hx => (hfut e (List.mem_cons_self e rest)).trans
          (List.rel_of_pairwise_cons h4 hx))
      rw [absorbEntity_end]
      split
      · exact lt_of_le_of_lt (hfut e (List.mem_cons_self e rest))
          (h2 e (List.mem_cons_self e rest))
      · exact hpe
    · have hstep : mergeSweep c (e :: rest) =
          closeCluster c :: mergeSweep (openCluster e) rest := by
        simp [mergeSweep, he]
      rw [hstep]
      exact ⟨closeCluster c, List.mem_cons_self _ _, hps, hpe⟩

/-- Every remaining record's start point ends up covered by some emitted
span. -/
lemma mergeSweep_covers_mem (rest : List Entity) : ∀ c : Cluster,
    (∀ e ∈ rest, e.start < e.«end») →
    (∀ e ∈ rest, c.start ≤ e.start) →
    rest.Pairwise (fun a b => a.start ≤ b.start) →
    ∀ r ∈ rest, ∃ o ∈ mergeSweep c rest, o.start ≤ r.start ∧ r.start < o.«end» := by
  induction rest with
  | nil => intro c _ _ _ r hr; cases hr
  | cons e rest ih =>
    intro c h2 h3 h4 r hr
    by_cases he : e.start < c.«end»
    · have hstep : mergeSweep c (e :: rest) = mergeSweep (absorbEntity c e) rest := by
        simp [mergeSweep, he]
      rcases List.mem_cons.1 hr with hre | hrt
      · rw [hstep, hre]
        refine mergeSweep_covers rest (absorbEntity c e) e.start
          (fun x hx => h2 x (List.mem_cons_of_mem e hx))
          (List.Pairwise.of_cons h4)
          (by rw [absorbEntity_start]; exact h3 e (List.mem_cons_self e rest)) ?_
          (fun x hx => List.rel_of_pairwise_cons h4 hx)
        rw [absorbEntity_end]
        split
        · exact h2 e (List.mem_cons_self e rest)
        · exact he
      · rw [hstep]
        exact ih (absorbEntity c e)
          (fun x hx => h2 x (List.mem_cons_of_mem e hx))
          (fun x hx => by
            rw [absorbEntity_start]; exact h3 x (List.mem_cons_of_mem e hx))
          (List.Pairwise.of_cons h4) r hrt
    · have hstep : mergeSweep c (e :: rest) =
          closeCluster c :: mergeSweep (openCluster e) rest := by
        simp [mergeSweep, he]
      rcases List.mem_cons.1 hr with hre | hrt
      · obtain ⟨o, ho, h⟩ := mergeSweep_covers rest (openCluster e) e.start
          (fun x hx => h2 x (List.mem_cons_of_mem e hx))
          (List.Pairwise.of_cons h4)
          (le_refl _)
          (h2 e (List.mem_cons_self e rest))
          (fun x hx => List.rel_of_pairwise_cons h4 hx)
        rw [hre]
        exact ⟨o, hstep ▸ List.mem_cons_of_mem _ ho, h⟩
      · obtain ⟨o, ho, h⟩ := ih (openCluster e)
          (fun x hx => h2 x (List.mem_cons_of_mem e hx))
          (fun x hx => List.rel_of_pairwise_cons h4 hx)
          (List.Pairwise.of_cons h4) r hrt
        exact ⟨o, hstep ▸ List.mem_cons_of_mem _ ho, h⟩

/-! ### Re-running the sweep on disjoint spans -/

lemma sortStrings_singleton (s : String) : sortStrings [s] = [s] :=
  List.mergeSort_of_sorted (List.pairwise_singleton _ s)

lemma joinAnd_singleton (s : String) : joinAnd [s] = s := by
  simp [joinAnd, String.intercalate, String.intercalate.go]

lemma closeCluster_openCluster (e : Entity) : closeCluster (openCluster e) = e := by
  simp [closeCluster, openCluster, sortStrings_singleton, joinAnd_singleton]

/-- On an already in-order, non-overlapping, non-empty list of spans the sweep
closes every cluster immediately and reproduces its input. -/
lemma mergeSweep_disjoint_id (rest : List Entity) : ∀ e : Entity,
    List.Chain' (fun a b => a.«end» ≤ b.start) (e :: rest) →
    mergeSweep (openCluster e) rest = e :: rest := by
  induction rest with
  | nil => intro e _; simp [mergeSweep, closeCluster_openCluster]
  | cons b rest ih =>
    intro e hc
    rw [List.chain'_cons] at hc
    have hnb : ¬ b.start < (openCluster e).«end» := not_lt.2 hc.1
    calc mergeSweep (openCluster e) (b :: rest)
        = closeCluster (openCluster e) :: mergeSweep (openCluster b) rest := by
          simp [mergeSweep, hnb]
      _ = e :: b :: rest := by rw [closeCluster_openCluster, ih b hc.2]

/-- The core is the identity on valid, in-order, non-overlapping lists. -/
lemma mergeCore_of_disjoint (l : List Entity)
    (hv : ∀ e ∈ l, e.start < e.«end»)
    (hc : List.Chain' (fun a b => a.«end» ≤ b.start) l) :
    mergeCore l = l := by
  have hlt : l.Pairwise (fun a b => a.start < b.start) := by
    refine (pairwise_disjoint_of_spans l hv hc).imp_of_mem ?_
    intro a b ha _ h
    exact lt_of_lt_of_le (hv a ha) h
  have hsorted : l.Pairwise (fun a b => entityLE a b = true) := by
    refine hlt.imp ?_
    intro a b h
    simp only [entityLE, decide_eq_true_eq]
    exact Or.inl h
  have hs : sortEntities l = l := List.mergeSort_of_sorted hsorted
  rcases l with _ | ⟨e, rest⟩
  · rw [mergeCore, hs]
  · rw [mergeCore, hs]
    exact mergeSweep_disjoint_id rest e hc

/-! ### Association-list lookups for the batch accumulators -/

lemma lookup_append {β : Type} (l₁ l₂ : List (String × β)) (k : String) :
    (l₁ ++ l₂).lookup k = (l₁.lookup k).or (l₂.lookup k) := by
  induction l₁ with
  | nil => simp
  | cons p t ih =>
    rcases p with ⟨k1, v1⟩
    rw [List.cons_append, List.lookup_cons, List.lookup_cons]
    cases k == k1 <;> simp [ih]

lemma lookup_map_update {β : Type} (m : List (String × β)) (u t : String)
    (g : β → β) :
    (m.map fun p => if p.1 = u then (p.1, g p.2) else p).lookup t =
      if t = u then (m.lookup u).map g else m.lookup t := by
  induction m with
  | nil => simp
  | cons p m ih =>
    rcases p with ⟨k, v⟩
    rw [List.map_cons]
    by_cases htk : t = k
    · subst htk
      by_cases hku : t = u
      · subst hku
        simp [List.lookup_cons]
      · simp [List.lookup_cons, hku]
    · have hb : (t == k) = false := by
        simp only [beq_eq_false_iff_ne, ne_eq]; exact htk
      by_cases hku : k = u
      · subst hku
        simp [List.lookup_cons, hb, htk, ih]
      · have hb2 : (u == k) = false := by
          simp only [beq_eq_false_iff_ne, ne_eq]; exact fun h => hku h.symm
        simp [List.lookup_cons, hb, hb2, htk, hku, ih]

lemma lookup_map_val {β γ : Type} (m : List (String × β)) (h : β → γ)
    (t : String) :
    (m.map fun p => (p.1, h p.2)).lookup t = (m.lookup t).map h := by
  induction m with
  | nil => simp
  | cons p m ih =>
    rcases p with ⟨k, v⟩
    rw [List.map_cons, List.lookup_cons, List.lookup_cons]
    cases t == k <;> simp [ih]

lemma lookup_updateScores (m : List (String × Score × Nat)) (u t : String)
    (s : Score) :
    (updateScores m u s).lookup t =
      if t = u then
        match m.lookup u with
        | some p => some (p.1 + s, p.2 + 1)
        | none => some (s, 1)
      else m.lookup t := by
  unfold updateScores
  by_cases hm : (m.lookup u).isSome
  · rw [if_pos hm]
    rw [lookup_map_update m u t (fun q => (q.1 + s, q.2 + 1))]
    obtain ⟨q, hq⟩ := Option.isSome_iff_exists.mp hm
    by_cases ht : t = u
    · rw [if_pos ht, if_pos ht, hq]
      rfl
    · rw [if_neg ht, if_neg ht]
  · rw [if_neg hm]
    rw [lookup_append]
    have hnone : m.lookup u = none := Option.not_isSome_iff_eq_none.mp hm
    by_cases ht : t = u
    · subst ht
      rw [hnone]
      simp [List.lookup_cons]
    · have hb : (t == u) = false := by
        simp only [beq_eq_false_iff_ne, ne_eq]; exact ht
      rw [if_neg ht]
      simp [List.lookup_cons, hb]

lemma lookup_updateExplanations (m : List (String × List String))
    (u t ex : String) :
    (updateExplanations m u ex).lookup t =
      if t = u then
        match m.lookup u with
        | some js => some (insertExpl js ex)
        | none => some [ex]
      else m.lookup t := by
  unfold updateExplanations
  by_cases hm : (m.lookup u).isSome
  · rw [if_pos hm]
    rw [lookup_map_update m u t (fun js => insertExpl js ex)]
    obtain ⟨q, hq⟩ := Option.isSome_iff_exists.mp hm
    by_cases ht : t = u
    · rw [if_pos ht, if_pos ht, hq]
      rfl
    · rw [if_neg ht, if_neg ht]
  · rw [if_neg hm]
    rw [lookup_append]
    have hnone : m.lookup u = none := Option.not_isSome_iff_eq_none.mp hm
    by_cases ht : t = u
    · subst ht
      rw [hnone]
      simp [List.lookup_cons]
    · have hb : (t == u) = false := by
        simp only [beq_eq_false_iff_ne, ne_eq]; exact ht
      rw [if_neg ht]
      simp [List.lookup_cons, hb]

/-! ### Characterizing the batch accumulators by a fold over the flattened
detections -/

lemma foldl_accumulateResult (l : List RecognizerResult) :
    ∀ m₁ m₂, l.foldl accumulateResult (m₁, m₂) =
      (l.foldl (fun m r => updateScores m r.entity_type r.score) m₁,
       l.foldl (fun m r => updateExplanations m r.entity_type
         r.analysis_explanation.textual_explanation) m₂) := by
  induction l with
  | nil => intro m₁ m₂; rfl
  | cons r l ih =>
    intro m₁ m₂
    rw [List.foldl_cons, List.foldl_cons, List.foldl_cons]
    exact ih _ _

lemma itemAccum_eq (item : DictAnalyzerResult) :
    itemAccum item =
      ((flatResults item).foldl
        (fun m r => updateScores m r.entity_type r.score) [],
       (flatResults item).foldl
        (fun m r => updateExplanations m r.entity_type
          r.analysis_explanation.textual_explanation) []) := by
  have h1 : itemAccum item = (flatResults item).foldl accumulateResult ([], []) :=
    (List.foldl_flatten accumulateResult ([], []) item.recognizer_results).symm
  rw [h1, foldl_accumulateResult]

lemma catScoreSum_cons_self (r : RecognizerResult) (l : List RecognizerResult)
    (t : String) (h : r.entity_type = t) :
    catScoreSum t (r :: l) = r.score + catScoreSum t l := by
  simp [catScoreSum, List.filter_cons, h]

lemma catScoreSum_cons_ne (r : RecognizerResult) (l : List RecognizerResult)
    (t : String) (h : ¬ r.entity_type = t) :
    catScoreSum t (r :: l) = catScoreSum t l := by
  simp [catScoreSum, List.filter_cons, h]

lemma catCount_cons_self (r : RecognizerResult) (l : List RecognizerResult)
    (t : String) (h : r.entity_type = t) :
    catCount t (r :: l) = catCount t l + 1 := by
  simp [catCount, List.filter_cons, h]

lemma catCount_cons_ne (r : RecognizerResult) (l : List RecognizerResult)
    (t : String) (h : ¬ r.entity_type = t) :
    catCount t (r :: l) = catCount t l := by
  simp [catCount, List.filter_cons, h]

lemma catJusts_cons_self (r : RecognizerResult) (l : List RecognizerResult)
    (t : String) (h : r.entity_type = t) :
    catJusts t (r :: l) =
      r.analysis_explanation.textual_explanation :: catJusts t l := by
  simp [catJusts, List.filter_cons, h]

lemma catJusts_cons_ne (r : RecognizerResult) (l : List RecognizerResult)
    (t : String) (h : ¬ r.entity_type = t) :
    catJusts t (r :: l) = catJusts t l := by
  simp [catJusts, List.filter_cons, h]

lemma lookup_scores_fold (l : List RecognizerResult) :
    ∀ (m : List (String × Score × Nat)) (t : String),
    (l.foldl (fun m r => updateScores m r.entity_type r.score) m).lookup t =
      match m.lookup t with
      | some p => some (p.1 + catScoreSum t l, p.2 + catCount t l)
      | none => if 0 < catCount t l then
          some (catScoreSum t l, catCount t l) else none := by
  induction l with
  | nil =>
    intro m t
    cases hm : m.lookup t <;> simp [catScoreSum, catCount, hm]
  | cons r l ih =>
    intro m t
    rw [List.foldl_cons, ih, lookup_updateScores]
    by_cases ht : t = r.entity_type
    · rw [if_pos ht, catScoreSum_cons_self r l t ht.symm,
        catCount_cons_self r l t ht.symm, ht]
      cases hm : m.lookup r.entity_type with
      | some p =>
        have hsc : p.1 + r.score + catScoreSum r.entity_type l =
            p.1 + (r.score + catScoreSum r.entity_type l) := by ring
        have hct : p.2 + 1 + catCount r.entity_type l =
            p.2 + (catCount r.entity_type l + 1) := by omega
        simp only [hsc, hct]
      | none =>
        have hpos : 0 < catCount r.entity_type l + 1 := Nat.succ_pos _
        rw [if_pos hpos]
        have hct : 1 + catCount r.entity_type l =
            catCount r.entity_type l + 1 := by omega
        simp [hct]
    · rw [if_neg ht, catScoreSum_cons_ne r l t (fun h => ht h.symm),
        catCount_cons_ne r l t (fun h => ht h.symm)]

lemma lookup_expl_fold (l : List RecognizerResult) :
    ∀ (m : List (String × List String)) (t : String),
    (l.foldl (fun m r => updateExplanations m r.entity_type
        r.analysis_explanation.textual_explanation) m).lookup t =
      match m.lookup t with
      | some js => some ((catJusts t l).foldl insertExpl js)
      | none => if 0 < catCount t l then
          some ((catJusts t l).foldl insertExpl []) else none := by
  induction l with
  | nil =>
    intro m t
    cases hm : m.lookup t <;> simp [catJusts, catCount, hm]
  | cons r l ih =>
    intro m t
    rw [List.foldl_cons, ih, lookup_updateExplanations]
    by_cases ht : t = r.entity_type
    · rw [if_pos ht, catJusts_cons_self r l t ht.symm,
        catCount_cons_self r l t ht.symm, ht]
      cases hm : m.lookup r.entity_type with
      | some js =>
        simp [List.foldl_cons]
      | none =>
        have hpos : 0 < catCount r.entity_type l + 1 := Nat.succ_pos _
        rw [if_pos hpos, List.foldl_cons]
        have : insertExpl [] r.analysis_explanation.textual_explanation =
            [r.analysis_explanation.textual_explanation] := by
          simp [insertExpl]
        rw [this]
    · rw [if_neg ht, catJusts_cons_ne r l t (fun h => ht h.symm),
        catCount_cons_ne r l t (fun h => ht h.symm)]

/-! ### Sets as insertion-ordered duplicate-free lists -/

lemma mem_insertExpl (s : List String) (e x : String) :
    x ∈ insertExpl s e ↔ x ∈ s ∨ x = e := by
  unfold insertExpl
  split
  · rename_i he
    constructor
    · exact Or.inl
    · rintro (h | rfl)
      · exact h
      · exact he
  · simp

lemma nodup_insertExpl (s : List String) (e : String) (h : s.Nodup) :
    (insertExpl s e).Nodup := by
  unfold insertExpl
  split
  · exact h
  · rename_i he
    simp [List.nodup_append, h, he]

lemma mem_foldl_insertExpl (l : List String) :
    ∀ (acc : List String) (x : String),
      x ∈ l.foldl insertExpl acc ↔ x ∈ acc ∨ x ∈ l := by
  induction l with
  | nil => intro acc x; simp
  | cons a l ih =>
    intro acc x
    rw [List.foldl_cons, ih, mem_insertExpl]
    simp [or_assoc]

lemma nodup_foldl_insertExpl (l : List String) :
    ∀ acc : List String, acc.Nodup → (l.foldl insertExpl acc).Nodup := by
  induction l with
  | nil => intro acc h; exact h
  | cons a l ih =>
    intro acc h
    rw [List.foldl_cons]
    exact ih _ (nodup_insertExpl acc a h)

lemma mem_dedupFirst (l : List String) (x : String) :
    x ∈ dedupFirst l ↔ x ∈ l := by
  rw [dedupFirst, mem_foldl_insertExpl]
  simp

lemma nodup_dedupFirst (l : List String) : (dedupFirst l).Nodup :=
  nodup_foldl_insertExpl l [] List.nodup_nil

/-- Folding `set.add` over a list from any starting set appends exactly the
unseen strings, in first-seen order. -/
lemma foldl_insertExpl_firstSeen (l : List String) :
    ∀ acc : List String,
      l.foldl insertExpl acc =
        acc ++ firstSeen (l.filter fun b => decide (b ∉ acc)) := by
  induction l with
  | nil => intro acc; simp [firstSeen]
  | cons a l ih =>
    intro acc
    rw [List.foldl_cons]
    by_cases ha : a ∈ acc
    · have hins : insertExpl acc a = acc := by simp [insertExpl, ha]
      have hfil : decide (a ∉ acc) = false := by simp [ha]
      rw [hins, ih, List.filter_cons, hfil]
      simp
    · have hins : insertExpl acc a = acc ++ [a] := by simp [insertExpl, ha]
      have hfil : decide (a ∉ acc) = true := by simp [ha]
      rw [hins, ih, List.filter_cons, hfil, if_pos rfl]
      rw [firstSeen, List.filter_filter]
      have hpred : ∀ b ∈ l, (decide (b ≠ a) && decide (b ∉ acc)) =
          decide (b ∉ acc ++ [a]) := by
        intro b _
        by_cases h1 : b = a <;> by_cases h2 : b ∈ acc <;> simp [h1, h2]
      rw [List.filter_congr hpred]
      simp

/-- The deduplicated contents of a set built by successive `add`s are the
input's elements in first-seen order. -/
lemma dedupFirst_eq_firstSeen (l : List String) : dedupFirst l = firstSeen l := by
  rw [dedupFirst, foldl_insertExpl_firstSeen]
  have : ∀ b ∈ l, (decide (b ∉ ([] : List String))) = true := by simp
  rw [List.filter_congr this]
  simp

/-! ### Sorting strings -/

lemma sortStrings_perm (l : List String) : (sortStrings l).Perm l :=
  List.mergeSort_perm l _

lemma sortStrings_pairwise (l : List String) :
    (sortStrings l).Pairwise (· ≤ ·) := by
  have h := @List.sorted_mergeSort String (fun a b : String => decide (a ≤ b))
    (fun a b c hab hbc => by
      simp only [decide_eq_true_eq] at *
      exact le_trans hab hbc)
    (fun a b => by
      simp only [Bool.or_eq_true, decide_eq_true_eq]
      exact le_total a b)
    l
  exact h.imp fun hab => by simpa using hab

lemma unionTokens_mem (c e : Entity) (s : String) :
    s ∈ unionTokens c e ↔
      s ∈ splitAnd c.explanation ∨ s ∈ splitAnd e.explanation := by
  rw [unionTokens, (sortStrings_perm _).mem_iff, mem_dedupFirst,
    List.mem_append]

lemma unionTokens_nodup (c e : Entity) : (unionTokens c e).Nodup :=
  ((sortStrings_perm _).nodup_iff).2 (nodup_dedupFirst _)

lemma unionTokens_pairwise (c e : Entity) :
    (unionTokens c e).Pairwise (· ≤ ·) :=
  sortStrings_pairwise _

/-! ### The adjacency sweep -/

lemma fuseAdjacent_start (c e : Entity) : (fuseAdjacent c e).start = c.start := rfl

lemma fuseAdjacent_end (c e : Entity) : (fuseAdjacent c e).«end» = e.«end» := rfl

/-- The adjacency sweep preserves validity and in-order non-overlap of spans,
and keeps the head start. -/
lemma adjacentSweep_spans (rest : List Entity) : ∀ c : Entity,
    c.start < c.«end» →
    (∀ x ∈ rest, x.start < x.«end») →
    List.Chain' (fun a b => a.«end» ≤ b.start) (c :: rest) →
    ∃ o out, adjacentSweep c rest = o :: out ∧ o.start = c.start ∧
      (∀ x ∈ o :: out, x.start < x.«end») ∧
      List.Chain' (fun a b => a.«end» ≤ b.start) (o :: out) := by
  induction rest with
  | nil =>
    intro c h1 _ _
    exact ⟨c, [], rfl, rfl, by simpa using h1, List.chain'_singleton _⟩
  | cons e rest ih =>
    intro c h1 h2 hc
    rw [List.chain'_cons] at hc
    by_cases hf : e.type = c.type ∧ e.start = c.«end»
    · have hstep : adjacentSweep c (e :: rest) = adjacentSweep (fuseAdjacent c e) rest := by
        simp [adjacentSweep, hf]
      have h1' : (fuseAdjacent c e).start < (fuseAdjacent c e).«end» := by
        rw [fuseAdjacent_start, fuseAdjacent_end]
        calc c.start < c.«end» := h1
          _ ≤ e.start := hc.1
          _ < e.«end» := h2 e (List.mem_cons_self e rest)
      have hc' : List.Chain' (fun a b => a.«end» ≤ b.start) (fuseAdjacent c e :: rest) := by
        rw [List.chain'_cons']
        refine ⟨?_, hc.2.tail⟩
        intro h hh
        rw [fuseAdjacent_end]
        rcases rest with _ | ⟨r0, rest'⟩
        · cases hh
        · rw [List.chain'_cons] at hc
          simp only [List.head?_cons, Option.mem_def, Option.some.injEq] at hh
          exact hh ▸ hc.2.1
      obtain ⟨o, out, heq, hst, hv, hch⟩ := ih (fuseAdjacent c e) h1'
        (fun x hx => h2 x (List.mem_cons_of_mem e hx)) hc'
      exact ⟨o, out, hstep ▸ heq, hst.trans (fuseAdjacent_start c e), hv, hch⟩
    · have hstep : adjacentSweep c (e :: rest) = c :: adjacentSweep e rest := by
        simp [adjacentSweep, hf]
      obtain ⟨o, out, heq, hst, hv, hch⟩ := ih e
        (h2 e (List.mem_cons_self e rest))
        (fun x hx => h2 x (List.mem_cons_of_mem e hx)) hc.2
      refine ⟨c, adjacentSweep e rest, hstep, rfl, ?_, ?_⟩
      · intro x hx
        rcases List.mem_cons.1 hx with hx | hx
        · exact hx ▸ h1
        · rw [heq] at hx; exact hv x hx
      · rw [heq, List.chain'_cons]
        exact ⟨hst ▸ hc.1, hch⟩

/-! ### Per-item characterization of the batch output -/

lemma foldl_nil_firstSeen (l : List String) :
    l.foldl insertExpl [] = firstSeen l :=
  dedupFirst_eq_firstSeen l

lemma avg_scores_lookup (item : DictAnalyzerResult) (t : String) :
    (summarizeItem item).avg_scores.lookup t =
      if 0 < catCount t (flatResults item) then
        some (catScoreSum t (flatResults item) /
          (catCount t (flatResults item) : Score))
      else none := by
  have h1 : (itemAccum item).1 = (flatResults item).foldl
      (fun m r => updateScores m r.entity_type r.score) [] := by
    rw [itemAccum_eq]
  show ((itemAccum item).1.map
      fun p => (p.1, p.2.1 / (p.2.2 : Score))).lookup t = _
  rw [lookup_map_val (itemAccum item).1 (fun q => q.1 / (q.2 : Score)) t,
    h1, lookup_scores_fold]
  by_cases hc : 0 < catCount t (flatResults item)
  · simp [hc]
  · simp [hc]

lemma explanation_lookup (item : DictAnalyzerResult) (t : String) :
    (summarizeItem item).explanation.lookup t =
      if 0 < catCount t (flatResults item) then
        some (joinAnd (firstSeen (catJusts t (flatResults item))))
      else none := by
  have h2 : (itemAccum item).2 = (flatResults item).foldl
      (fun m r => updateExplanations m r.entity_type
        r.analysis_explanation.textual_explanation) [] := by
    rw [itemAccum_eq]
  show ((itemAccum item).2.map fun p => (p.1, joinAnd p.2)).lookup t = _
  rw [lookup_map_val (itemAccum item).2 joinAnd t, h2, lookup_expl_fold]
  by_cases hc : 0 < catCount t (flatResults item)
  · simp [hc, foldl_nil_firstSeen]
  · simp [hc]

lemma updateScores_count_pos (m : List (String × Score × Nat)) (u : String)
    (s : Score) (hm : ∀ q ∈ m, 1 ≤ q.2.2) :
    ∀ p ∈ updateScores m u s, 1 ≤ p.2.2 := by
  intro p hp
  unfold updateScores at hp
  split at hp
  · obtain ⟨q, hq, rfl⟩ := List.mem_map.1 hp
    split
    · exact Nat.le_succ_of_le (hm q hq)
    · exact hm q hq
  · rcases List.mem_append.1 hp with h | h
    · exact hm p h
    · rw [List.mem_singleton.1 h]

lemma scores_fold_count_pos (l : List RecognizerResult) :
    ∀ m : List (String × Score × Nat), (∀ q ∈ m, 1 ≤ q.2.2) →
      ∀ p ∈ l.foldl (fun m r => updateScores m r.entity_type r.score) m,
        1 ≤ p.2.2 := by
  induction l with
  | nil => intro m hm; exact hm
  | cons r l ih =>
    intro m hm
    rw [List.foldl_cons]
    exact ih _ (updateScores_count_pos m r.entity_type r.score hm)

lemma catCount_pos_iff (t : String) (rs : List RecognizerResult) :
    0 < catCount t rs ↔ t ∈ rs.map fun r => r.entity_type := by
  rw [catCount, ← List.countP_eq_length_filter, List.countP_pos_iff]
  simp only [List.mem_map, decide_eq_true_eq]

/-! ### Claim theorems -/

/-- Claim C1, counterexample: on the overlapping pair `[0,5)` at score `0.9`
and `[3,8)` at score `0.7` (same category), `merge_entities` does not return
a span ending at `8`: the lower-scoring overlap never extends the cluster
boundary, so the span ends at `5`. -/
theorem overlap_scenario1_counterexample :
    ¬ ((merge_entities [ovlA, ovlB]).map (fun o => (o.start, o.«end», o.score)) =
      [(0, 8, 0.9)]) := by
  with_unfolding_all decide

/-- Claim C1 (amended): on the overlapping pair `[0,5)` at score `0.9` and
`[3,8)` at score `0.7` (same category), `merge_entities` returns exactly one
span with start `0` and end `5` (the higher-scoring record's end — the
lower-scoring overlap does not extend the boundary), score `0.9`, and a
justification string containing both records' explanations. -/
theorem overlap_scenario1 :
    merge_entities [ovlA, ovlB] =
      [{ word := "ab", start := 0, «end» := 5, type := "T", score := 0.9,
         explanation := "alpha and beta" }] ∧
    ovlA.analysis_explanation.textual_explanation ∈ splitAnd "alpha and beta" ∧
    ovlB.analysis_explanation.textual_explanation ∈ splitAnd "alpha and beta" := by
  refine ⟨?_, ?_, ?_⟩
  · with_unfolding_all rfl
  · with_unfolding_all decide
  · with_unfolding_all decide

/-- Claim C2, counterexample: the input record `[3,8)` (score `0.7`) of the
valid pair below is not fully contained in any output span of
`merge_entities` — the single output span is `[0,5)`. -/
theorem overlap_containment_counterexample :
    cov2 ∈ [cov1, cov2] ∧ cov1.start < cov1.«end» ∧ cov2.start < cov2.«end» ∧
    (merge_entities [cov1, cov2]).countP
      (fun o => decide (o.start ≤ cov2.start ∧ cov2.«end» ≤ o.«end»)) = 0 := by
  refine ⟨?_, ?_, ?_, ?_⟩ <;> with_unfolding_all decide

/-- Claim C2 (amended): for every input list of records with
`0 ≤ start < end`, every input record's start offset lies inside the
`[start, end)` range of exactly one output record of `merge_entities`
(full spans need not be contained, see the counterexample). -/
theorem merge_entities_start_containment (l : List RawEntity)
    (hv : ∀ r ∈ l, r.start < r.«end») (r : RawEntity) (hr : r ∈ l) :
    (merge_entities l).countP
      (fun o => decide (o.start ≤ r.start ∧ r.start < o.«end»)) = 1 := by
  have hvf : ∀ e ∈ l.map flattenPrediction, e.start < e.«end» := by
    intro e he
    obtain ⟨r', hr', rfl⟩ := List.mem_map.1 he
    exact hv r' hr'
  have hme : merge_entities l = mergeCore (l.map flattenPrediction) := rfl
  obtain ⟨hval, hchain⟩ := mergeCore_spans (l.map flattenPrediction) hvf
  have hub := countP_cover_le_one (mergeCore (l.map flattenPrediction)) r.start
    (pairwise_disjoint_of_spans _ hval hchain)
  obtain ⟨hperm, hsorted⟩ := sortEntities_facts (l.map flattenPrediction)
  have hvs : ∀ e ∈ sortEntities (l.map flattenPrediction), e.start < e.«end» :=
    fun e he => hvf e (hperm.subset he)
  have hmem : flattenPrediction r ∈ sortEntities (l.map flattenPrediction) :=
    hperm.mem_iff.2 (List.mem_map_of_mem flattenPrediction hr)
  rcases hs : sortEntities (l.map flattenPrediction) with _ | ⟨e, rest⟩
  · rw [hs] at hmem; cases hmem
  · rw [hs] at hmem hvs hsorted
    have hcore : mergeCore (l.map flattenPrediction) =
        mergeSweep (openCluster e) rest := by
      rw [mergeCore, hs]
    have hrs : (flattenPrediction r).start = r.start := rfl
    have hex : ∃ o ∈ mergeCore (l.map flattenPrediction),
        o.start ≤ r.start ∧ r.start < o.«end» := by
      rcases List.mem_cons.1 hmem with hre | hrt
      · rw [hcore]
        obtain ⟨o, ho, h1, h2⟩ := mergeSweep_covers rest (openCluster e) e.start
          (fun x hx => hvs x (List.mem_cons_of_mem e hx))
          (List.Pairwise.of_cons hsorted)
          (le_refl _)
          (hvs e (List.mem_cons_self e rest))
          (fun x hx => List.rel_of_pairwise_cons hsorted hx)
        refine ⟨o, ho, ?_, ?_⟩
        · rw [← hrs, hre]; exact h1
        · rw [← hrs, hre]; exact h2
      · rw [hcore]
        obtain ⟨o, ho, h⟩ := mergeSweep_covers_mem rest (openCluster e)
          (fun x hx => hvs x (List.mem_cons_of_mem e hx))
          (fun x hx => List.rel_of_pairwise_cons hsorted hx)
          (List.Pairwise.of_cons hsorted)
          (flattenPrediction r) hrt
        exact ⟨o, ho, hrs ▸ h⟩
    have hlb : 0 < (mergeCore (l.map flattenPrediction)).countP
        (fun o => decide (o.start ≤ r.start ∧ r.start < o.«end»)) := by
      rw [List.countP_pos_iff]
      obtain ⟨o, ho, h1, h2⟩ := hex
      exact ⟨o, ho, by simp [h1, h2]⟩
    rw [hme]
    omega

/-- Witness for the start-containment theorem at the concrete overlapping
pair: the start of `[3,8)` lies in exactly one output span. -/
theorem merge_entities_start_containment_witness :
    (∀ r ∈ [cov1, cov2], r.start < r.«end») ∧
    (merge_entities [cov1, cov2]).countP
      (fun o => decide (o.start ≤ cov2.start ∧ cov2.start < o.«end»)) = 1 :=
  ⟨by with_unfolding_all decide,
   merge_entities_start_containment [cov1, cov2] (by with_unfolding_all decide)
     cov2 (by with_unfolding_all decide)⟩

/-- Claim C3, counterexample: `merge_consecutive_entities` applied directly
to an arbitrary valid (but unsorted) list does not return a list strictly
sorted by start — it never reorders its input. -/
theorem merge_ordering_counterexample :
    (∀ x ∈ [uns1, uns2], x.start < x.«end») ∧
    ¬ List.Chain' (fun a b => a.start < b.start)
        (merge_consecutive_entities [uns1, uns2]) := by
  refine ⟨by with_unfolding_all decide, ?_⟩
  have hmc : merge_consecutive_entities [uns1, uns2] = [uns1, uns2] := by
    with_unfolding_all rfl
  rw [hmc, List.chain'_cons]
  simp [uns1, uns2]

/-- Claim C3 (amended): for every input list of records with
`0 ≤ start < end`, the output of `merge_entities` is strictly sorted by
start and non-overlapping (each span's start is at least the previous
span's end), and the output of `merge_consecutive_entities` applied to that
output (its contractual input) is likewise strictly sorted by start. -/
theorem merge_ordering (l : List RawEntity)
    (hv : ∀ r ∈ l, r.start < r.«end») :
    List.Chain' (fun a b => a.start < b.start) (merge_entities l) ∧
    List.Chain' (fun a b => a.«end» ≤ b.start) (merge_entities l) ∧
    List.Chain' (fun a b => a.start < b.start)
      (merge_consecutive_entities (merge_entities l)) := by
  have hvf : ∀ e ∈ l.map flattenPrediction, e.start < e.«end» := by
    intro e he
    obtain ⟨r', hr', rfl⟩ := List.mem_map.1 he
    exact hv r' hr'
  have hme : merge_entities l = mergeCore (l.map flattenPrediction) := rfl
  obtain ⟨hval, hchain⟩ := mergeCore_spans (l.map flattenPrediction) hvf
  refine ⟨?_, ?_, ?_⟩
  · rw [hme]
    exact chain_start_lt_of_spans _ hval hchain
  · rw [hme]
    exact hchain
  · rcases hm : merge_entities l with _ | ⟨e, rest⟩
    · rw [merge_consecutive_entities]
      exact List.chain'_nil
    · rw [hme] at hm
      obtain ⟨o, out, heq, _, hv', hch⟩ := adjacentSweep_spans rest e
        (hval e (by rw [hm]; exact List.mem_cons_self e rest))
        (fun x hx => hval x (by rw [hm]; exact List.mem_cons_of_mem e hx))
        (hm ▸ hchain)
      have hstep : merge_consecutive_entities (e :: rest) =
          adjacentSweep e rest := rfl
      rw [hstep, heq]
      exact chain_start_lt_of_spans _ hv' hch

/-- Witness for the ordering theorem at a concrete valid pair. -/
theorem merge_ordering_witness :
    (∀ r ∈ [ord1, ord2], r.start < r.«end») ∧
    (List.Chain' (fun a b => a.start < b.start) (merge_entities [ord1, ord2]) ∧
     List.Chain' (fun a b => a.«end» ≤ b.start) (merge_entities [ord1, ord2]) ∧
     List.Chain' (fun a b => a.start < b.start)
       (merge_consecutive_entities (merge_entities [ord1, ord2]))) :=
  ⟨by with_unfolding_all decide,
   merge_ordering [ord1, ord2] (by with_unfolding_all decide)⟩

/-- Claim C4, counterexample: `merge_entities` applied a second time to its
own output does not return it unchanged — it raises a `KeyError` on
`entity_type`, because output dicts carry the keys `type` and `explanation`
while the flattening loop reads `entity_type` and `analysis_explanation`. -/
theorem merge_idempotent_counterexample :
    merge_entities_py [pyInput] = Except.ok [pyOutput] ∧
    merge_entities_py [pyOutput] = Except.error "entity_type" := by
  refine ⟨?_, ?_⟩
  · with_unfolding_all rfl
  · with_unfolding_all rfl

/-- Claim C4 (amended): re-applying the full `merge_entities` to its own
output fails with a `KeyError` (see the counterexample), but the sort-and-sweep
core applied to its own output returns it unchanged: already-disjoint spans
never re-merge and no field is altered. -/
theorem mergeCore_idempotent (l : List Entity)
    (hv : ∀ e ∈ l, e.start < e.«end») :
    mergeCore (mergeCore l) = mergeCore l :=
  mergeCore_of_disjoint _ (mergeCore_spans l hv).1 (mergeCore_spans l hv).2

/-- Witness for the idempotence theorem at a concrete singleton. -/
theorem mergeCore_idempotent_witness :
    (∀ e ∈ [idem1], e.start < e.«end») ∧
    mergeCore (mergeCore [idem1]) = mergeCore [idem1] :=
  ⟨by with_unfolding_all decide,
   mergeCore_idempotent [idem1] (by with_unfolding_all decide)⟩

/-- Claim C5: whenever the next entry has the current entry's category and
starts exactly at its end, `merge_consecutive_entities` fuses the two into
one entry whose word is the direct concatenation, whose end is the next
entry's end, whose score is the pairwise arithmetic mean (the recursion on
the fused entry makes multi-entry fusion a left-fold of pairwise means), and
whose justification joins with `" and "` the sorted duplicate-free union of
the two `" and "`-token sets; entries failing either condition are never
fused. -/
theorem merge_consecutive_fusion (c e : Entity) (rest : List Entity) :
    ((unionTokens c e).Pairwise (· ≤ ·) ∧ (unionTokens c e).Nodup ∧
      (∀ s, s ∈ unionTokens c e ↔
        s ∈ splitAnd c.explanation ∨ s ∈ splitAnd e.explanation)) ∧
    (e.type = c.type → e.start = c.«end» →
      merge_consecutive_entities (c :: e :: rest) =
        merge_consecutive_entities
          ({ word := c.word ++ e.word, start := c.start, «end» := e.«end»,
             type := c.type, score := (c.score + e.score) / 2,
             explanation := joinAnd (unionTokens c e) } :: rest)) ∧
    (¬ (e.type = c.type ∧ e.start = c.«end») →
      merge_consecutive_entities (c :: e :: rest) =
        c :: merge_consecutive_entities (e :: rest)) := by
  refine ⟨⟨unionTokens_pairwise c e, unionTokens_nodup c e, unionTokens_mem c e⟩,
    ?_, ?_⟩
  · intro h1 h2
    show adjacentSweep c (e :: rest) = adjacentSweep (fuseAdjacent c e) rest
    rw [adjacentSweep, if_pos ⟨h1, h2⟩]
  · intro h
    show adjacentSweep c (e :: rest) = c :: adjacentSweep e rest
    rw [adjacentSweep, if_neg h]

/-- Witness for the fusion theorem: the adjacent same-category pair
`[0,4)`/`[4,9)` fuses, the non-adjacent different-category pair does not. -/
theorem merge_consecutive_fusion_witness :
    merge_consecutive_entities [adjA, adjB] =
      merge_consecutive_entities
        [{ word := adjA.word ++ adjB.word, start := adjA.start,
           «end» := adjB.«end», type := adjA.type,
           score := (adjA.score + adjB.score) / 2,
           explanation := joinAnd (unionTokens adjA adjB) }] ∧
    merge_consecutive_entities [adjB, adjC] =
      adjB :: merge_consecutive_entities [adjC] :=
  ⟨(merge_consecutive_fusion adjA adjB []).2.1 (by with_unfolding_all rfl)
      (by with_unfolding_all rfl),
   (merge_consecutive_fusion adjB adjC []).2.2 (by with_unfolding_all decide)⟩

/-- Claim C8: the empty detection list produces the empty list from every
stage, with no fault: `merge_entities`, `merge_consecutive_entities`,
`summarize_pii` (for every source text) and `summarize_pii_batch`. -/
theorem pipeline_empty :
    merge_entities [] = [] ∧ merge_consecutive_entities [] = [] ∧
    (∀ text : String, summarize_pii [] text = []) ∧
    summarize_pii_batch [] = [] := by
  refine ⟨?_, rfl, fun text => ?_, rfl⟩
  · with_unfolding_all rfl
  · with_unfolding_all rfl

/-- Claim C6: `summarize_pii_batch` produces one output record per group; its
`n` is the length of the group's value list and its `avg_scores` maps exactly
the categories occurring in the group's flattened detections, each to the sum
of that category's scores divided by the number of such detections. -/
theorem batch_average_scores (items : List DictAnalyzerResult) :
    (summarize_pii_batch items).length = items.length ∧
    List.Forall₂ (fun item out =>
      out.column = item.key ∧ out.n = item.value.length ∧
      ∀ t : String, out.avg_scores.lookup t =
        if 0 < catCount t (flatResults item) then
          some (catScoreSum t (flatResults item) /
            (catCount t (flatResults item) : Score))
        else none) items (summarize_pii_batch items) := by
  constructor
  · rw [summarize_pii_batch, List.length_map]
  · induction items with
    | nil => exact List.Forall₂.nil
    | cons it its ih =>
      exact List.Forall₂.cons
        ⟨rfl, rfl, fun t => avg_scores_lookup it t⟩ ih

/-- Claim C7, counterexample: for a group whose two same-category detections
carry the identical justification `"x"`, the combined explanation is the
deduplicated `"x"`, not the non-deduplicated join `"x and x"` of the
category's justification strings — the accumulator is a set. -/
theorem batch_explanation_counterexample :
    (summarize_pii_batch [dupItem]).map (fun o => o.explanation) =
      [[("A", "x")]] ∧
    catJusts "A" (flatResults dupItem) = ["x", "x"] ∧
    joinAnd (catJusts "A" (flatResults dupItem)) = "x and x" ∧
    ("x" : String) ≠ "x and x" := by
  refine ⟨?_, ?_, ?_, ?_⟩
  · with_unfolding_all rfl
  · with_unfolding_all rfl
  · with_unfolding_all rfl
  · with_unfolding_all decide

/-- Claim C7 (amended): for every batch group and category, the combined
explanation string is the deduplicated sequence of the group's justification
strings for that category, joined with `" and "` in first-seen order (the
per-category accumulator is a set, modelled here in insertion order; it is
not alphabetically sorted). -/
theorem batch_explanation_joined (items : List DictAnalyzerResult) :
    List.Forall₂ (fun item out =>
      ∀ t : String, out.explanation.lookup t =
        if 0 < catCount t (flatResults item) then
          some (joinAnd (firstSeen (catJusts t (flatResults item))))
        else none) items (summarize_pii_batch items) := by
  induction items with
  | nil => exact List.Forall₂.nil
  | cons it its ih =>
    exact List.Forall₂.cons (fun t => explanation_lookup it t) ih

/- Claim C9 concerns freedom from in-place mutation of the caller's Python
dicts; it has no counterpart in this value-level embedding. -/

/-- Claim C10: in `summarize_pii_batch`, every per-category entry of the
score accumulator carries a count of at least 1 when averages are taken
(the division is never by zero), and the keys of `avg_scores` are exactly
the categories occurring in the group's flattened detections. -/
theorem batch_average_safety (item : DictAnalyzerResult) :
    ((itemAccum item).1.all fun p => decide (1 ≤ p.2.2)) = true ∧
    (∀ t : String, ((summarizeItem item).avg_scores.lookup t).isSome ↔
      t ∈ (flatResults item).map fun r => r.entity_type) ∧
    summarize_pii_batch [item] = [summarizeItem item] := by
  refine ⟨?_, ?_, rfl⟩
  · rw [List.all_eq_true]
    intro p hp
    rw [decide_eq_true_eq]
    have h1 : (itemAccum item).1 = (flatResults item).foldl
        (fun m r => updateScores m r.entity_type r.score) [] := by
      rw [itemAccum_eq]
    rw [h1] at hp
    exact scores_fold_count_pos (flatResults item) []
      (fun q hq => absurd hq (List.not_mem_nil q)) p hp
  · intro t
    rw [avg_scores_lookup, ← catCount_pos_iff]
    by_cases hc : 0 < catCount t (flatResults item)
    · simp [hc]
    · simp [hc]
end Presidio
